import Mathlib

/-!
Verification of the PDF-metadata extraction program (`main.py`).

The program's field-extraction logic is a fixed set of Python `re` searches
applied to the raw text of each document.  We embed each concrete pattern as
an executable Lean function on `List Char`, reproducing Python's
leftmost-match, greedy/lazy and backtracking behaviour for exactly the
patterns the program uses.  Fallible steps (the month-name dictionary lookup
and the list indexing inside the date reassembly, which can raise
`KeyError`/`IndexError` in Python) are modelled with `Except Unit`.
-/

namespace PdfExtract

/-- Python `\s` (ASCII range): space, tab, newline, carriage return,
vertical tab, form feed. -/
def isSpaceC (c : Char) : Bool :=
  c = ' ' || c = '\t' || c = '\n' || c = '\r' || c = '\x0b' || c = '\x0c'

/-- Python `\w` (ASCII range): letters, digits and underscore. -/
def isWordC (c : Char) : Bool :=
  c.isAlphanum || c = '_'

/-- Python `\d` (ASCII range). -/
def isDigitC (c : Char) : Bool :=
  c.isDigit

/-- `needle.isPrefixOf s`, then the remainder of `s`; `none` when `needle`
is not a prefix.  Models matching a literal inside a pattern. -/
def stripLit (needle s : List Char) : Option (List Char) :=
  if needle.isPrefixOf s then some (s.drop needle.length) else none

/-- Does `needle` occur as a contiguous substring of `s`? -/
def containsSub (needle : List Char) : List Char → Bool
  | [] => needle.isEmpty
  | c :: rest => needle.isPrefixOf (c :: rest) || containsSub needle rest

/-- Python `str.strip()`: drop whitespace from both ends. -/
def pyStrip (s : List Char) : List Char :=
  ((s.dropWhile isSpaceC).reverse.dropWhile isSpaceC).reverse

/-- Python `str.lower()` (ASCII). -/
def pyLower (s : List Char) : List Char :=
  s.map Char.toLower

/-- Split at the first newline: `some (before, after)` with the newline
removed, `none` when there is no newline. -/
def splitAtNl : List Char → Option (List Char × List Char)
  | [] => none
  | c :: rest =>
    if c = '\n' then some ([], rest)
    else (splitAtNl rest).map (fun p => (c :: p.1, p.2))

/-- The tail `(.+?)\n` of the name/subject patterns, matched at the current
position: at least one non-newline character, lazily extended up to the
first newline, which must exist. -/
def lazyToNewline (s : List Char) : Option (List Char) :=
  match s with
  | [] => none
  | c :: rest =>
    if c = '\n' then none
    else (splitAtNl rest).map (fun p => c :: p.1)

/-- The tail `\s*(.+?)\n` of the name/subject patterns with Python's
backtracking: the greedy `\s*` prefers the longest whitespace run and gives
characters back one at a time when the rest of the pattern fails. -/
def matchTailNS : List Char → Option (List Char)
  | [] => none
  | c :: rest =>
    if isSpaceC c then
      match matchTailNS rest with
      | some cap => some cap
      | none => lazyToNewline (c :: rest)
    else lazyToNewline (c :: rest)

/-- One attempt of `(?:L1|L2)\s*(.+?)\n` at the current position: try the
first alternative (with its tail), then the second. -/
def matchLabelAt (l1 l2 s : List Char) : Option (List Char) :=
  (match stripLit l1 s with
   | some after => matchTailNS after
   | none => none) <|>
  (match stripLit l2 s with
   | some after => matchTailNS after
   | none => none)

/-- `re.search` for `(?:L1|L2)\s*(.+?)\n`: leftmost successful start
position wins. -/
def labelSearch (l1 l2 : List Char) : List Char → Option (List Char)
  | [] => none
  | c :: rest =>
    match matchLabelAt l1 l2 (c :: rest) with
    | some cap => some cap
    | none => labelSearch l1 l2 rest

/-- The name pattern `(?:Oficio|Memorando) Nro\.\s*(.+?)\n`. -/
def nameSearch (s : List Char) : Option (List Char) :=
  labelSearch "Oficio Nro.".data "Memorando Nro.".data s

/-- The subject pattern `(?:Asunto:|ASUNTO:)\s*(.+?)\n`. -/
def subjSearch (s : List Char) : Option (List Char) :=
  labelSearch "Asunto:".data "ASUNTO:".data s

/-- `extract_field_with_regex`: the stripped first capture group, or the
sentinel `"No encontrado"` when the pattern does not match. -/
def extractFieldWithRegex (search : List Char → Option (List Char))
    (text : List Char) : List Char :=
  match search text with
  | some g => pyStrip g
  | none => "No encontrado".data

/-- `\s+`: a nonempty whitespace run (maximal, which is forced here because
every continuation of the date pattern after a `\s+` starts with a
non-whitespace character). -/
def wsRun1 (s : List Char) : Option (List Char × List Char) :=
  match s with
  | [] => none
  | c :: rest =>
    if isSpaceC c then some (c :: rest.takeWhile isSpaceC, rest.dropWhile isSpaceC)
    else none

/-- `\w+`: a nonempty maximal word-character run. -/
def wordRun1 (s : List Char) : Option (List Char × List Char) :=
  match s with
  | [] => none
  | c :: rest =>
    if isWordC c then some (c :: rest.takeWhile isWordC, rest.dropWhile isWordC)
    else none

/-- `\d{4}`: exactly four digit characters (further digits are simply left
unconsumed, as in Python). -/
def digits4 (s : List Char) : Option (List Char) :=
  match s with
  | a :: b :: c :: d :: _ =>
    if isDigitC a && isDigitC b && isDigitC c && isDigitC d then some [a, b, c, d]
    else none
  | _ => none

/-- The date-pattern tail `\s+de\s+\w+\s+de\s+\d{4}` matched right after the
day digits; returns the matched characters.  All the quantifiers here are
deterministic because `\s`, `\w` and the literals partition the next
character. -/
def afterDay (s : List Char) : Option (List Char) := do
  let (w1, r1) ← wsRun1 s
  let r2 ← stripLit "de".data r1
  let (w2, r3) ← wsRun1 r2
  let (mon, r4) ← wordRun1 r3
  let (w3, r5) ← wsRun1 r4
  let r6 ← stripLit "de".data r5
  let (w4, r7) ← wsRun1 r6
  let yr ← digits4 r7
  pure (w1 ++ "de".data ++ w2 ++ mon ++ w3 ++ "de".data ++ w4 ++ yr)

/-- One attempt of `(\d{1,2}\s+de\s+\w+\s+de\s+\d{4})` at the current
position: the greedy `\d{1,2}` tries two digits first, then one. -/
def dateAt : List Char → Option (List Char)
  | [] => none
  | a :: rest =>
    if isDigitC a then
      match rest with
      | [] => none
      | b :: rest2 =>
        if isDigitC b then
          match afterDay rest2 with
          | some m => some (a :: b :: m)
          | none => (afterDay rest).map (a :: ·)
        else (afterDay rest).map (a :: ·)
    else none

/-- `re.search` for the date pattern: leftmost match. -/
def dateSearch : List Char → Option (List Char)
  | [] => none
  | c :: rest =>
    match dateAt (c :: rest) with
    | some m => some m
    | none => dateSearch rest

/-- Fuel-indexed scanner behind `tokens` (the fuel makes the recursion
structural, so the kernel can evaluate it; `tokens` always supplies enough
fuel). -/
def tokensF : Nat → List Char → List (List Char)
  | 0, _ => []
  | _ + 1, [] => []
  | fuel + 1, c :: rest =>
    if isDigitC c then
      (c :: rest.takeWhile isDigitC) :: tokensF fuel (rest.dropWhile isDigitC)
    else if isWordC c then
      (c :: rest.takeWhile isWordC) :: tokensF fuel (rest.dropWhile isWordC)
    else tokensF fuel rest

/-- `re.findall(r"\d+|\w+", s)`: scan left to right; at a digit take the
maximal digit run (the first alternative wins even though `\w+` could match
more), at a word character take the maximal word run, otherwise skip. -/
def tokens (s : List Char) : List (List Char) :=
  tokensF s.length s

/-- The fixed Spanish month dictionary of the program. -/
def months : List (List Char × List Char) :=
  [("enero".data, "01".data), ("febrero".data, "02".data), ("marzo".data, "03".data),
   ("abril".data, "04".data), ("mayo".data, "05".data), ("junio".data, "06".data),
   ("julio".data, "07".data), ("agosto".data, "08".data), ("septiembre".data, "09".data),
   ("octubre".data, "10".data), ("noviembre".data, "11".data), ("diciembre".data, "12".data)]

/-- Python `months[k]`: `none` models the `KeyError`. -/
def monthsLookup (k : List Char) : Option (List Char) :=
  (months.find? (fun p => p.1 = k)).map (·.2)

/-- The date-reassembly block of `process_pdf`: given the result of
`extract_field_with_regex` on the date pattern, build
`f"{parts[0]}-{months[parts[2].lower()]}-{parts[4]}"`.  `Except.error`
models the uncaught `IndexError`/`KeyError`. -/
def computeDate (dm : List Char) : Except Unit (List Char) :=
  if dm ≠ "No encontrado".data then
    let parts := tokens dm
    match parts.get? 0 with
    | none => .error ()
    | some p0 =>
      match parts.get? 2 with
      | none => .error ()
      | some p2 =>
        match monthsLookup (pyLower p2) with
        | none => .error ()
        | some m =>
          match parts.get? 4 with
          | none => .error ()
          | some p4 => .ok (p0 ++ '-' :: (m ++ '-' :: p4))
  else .ok "No encontrada".data

/-- Python `str.split("- ")` (leftmost, non-overlapping). -/
def splitDash : List Char → List (List Char)
  | '-' :: ' ' :: rest => [] :: splitDash rest
  | c :: rest =>
    match splitDash rest with
    | [] => [[c]]
    | h :: t => (c :: h) :: t
  | [] => [[]]

/-- The tail `\s*(.*?)(?:\n|$)` of the references pattern (DOTALL): the
greedy `\s*` takes the whole whitespace run (the continuation then always
succeeds, so it never gives characters back), and the lazy capture stops at
the first newline or at the end of input. -/
def refsTail (s : List Char) : List Char :=
  (s.dropWhile isSpaceC).takeWhile (· ≠ '\n')

/-- End of the lazy capture `(.*?)(?:\n\n|$)` (DOTALL, no MULTILINE): stop
at the first blank line, at the end of input, or just before a trailing
final newline (where `$` matches). -/
def takeUntilAnnexEnd : List Char → List Char
  | [] => []
  | c :: rest =>
    if c = '\n' && (rest.isEmpty || rest.head? == some '\n') then []
    else c :: takeUntilAnnexEnd rest

/-- The tail `\s*(.*?)(?:\n\n|$)` of the annex pattern. -/
def annexTail (s : List Char) : List Char :=
  takeUntilAnnexEnd (s.dropWhile isSpaceC)

/-- `re.search` for a pattern `LABEL<tail>` whose tail never fails: find
the leftmost occurrence of the literal label and apply the tail to what
follows. -/
def sectionSearch (label : List Char) (tail : List Char → List Char) :
    List Char → Option (List Char)
  | [] => none
  | c :: rest =>
    match stripLit label (c :: rest) with
    | some after => some (tail after)
    | none => sectionSearch label tail rest

/-- `re.search(r"Referencias:\s*(.*?)(?:\n|$)", text, re.DOTALL)`. -/
def refsSearch (s : List Char) : Option (List Char) :=
  sectionSearch "Referencias:".data refsTail s

/-- `re.search(r"Anexos:\s*(.*?)(?:\n\n|$)", text, re.DOTALL)`. -/
def annexSearch (s : List Char) : Option (List Char) :=
  sectionSearch "Anexos:".data annexTail s

/-- The references block of `process_pdf`: split the captured section on
`"- "`, strip each piece, drop empty pieces, join with `", "`; sentinel
`"No encontradas"` when the label is absent or nothing survives. -/
def refsField (text : List Char) : List Char :=
  match refsSearch text with
  | some refsText =>
    let pieces := ((splitDash refsText).map pyStrip).filter (· ≠ [])
    if pieces.isEmpty then "No encontradas".data
    else List.intercalate ", ".data pieces
  | none => "No encontradas".data

/-- `(.+)$` at the current line: everything up to the next newline, plus
the remainder starting at that newline. -/
def takeToEol (s : List Char) : List Char × List Char :=
  (s.takeWhile (· ≠ '\n'), s.dropWhile (· ≠ '\n'))

/-- The tail `\s*(.+)$` of `^-\s*(.+)$` with Python's backtracking: the
greedy `\s*` (which may cross newlines) prefers the longest run; the
capture needs at least one non-newline character and runs to the end of its
line.  Returns the capture and the rest of the input after it. -/
def annexTailMatch : List Char → Option (List Char × List Char)
  | [] => none
  | c :: rest =>
    if isSpaceC c then
      match annexTailMatch rest with
      | some r => some r
      | none => if c = '\n' then none else some (takeToEol (c :: rest))
    else some (takeToEol (c :: rest))

/-- Fuel-indexed scanner behind `annexFindall` (structural recursion so
the kernel can evaluate it; enough fuel is always supplied because the
continuation after a match is a suffix of the input). -/
def annexFindallF : Nat → Bool → List Char → List (List Char)
  | 0, _, _ => []
  | _ + 1, _, [] => []
  | fuel + 1, atStart, c :: rest =>
    if atStart && c = '-' then
      match annexTailMatch rest with
      | some (cap, after) => cap :: annexFindallF fuel false after
      | none => annexFindallF fuel (c = '\n') rest
    else annexFindallF fuel (c = '\n') rest

/-- `re.findall(r"^-\s*(.+)$", section, re.MULTILINE)`: scan left to right;
a match can only start with `-` at the start of a line; after a match,
scanning resumes right after the capture (at the newline ending it, so a
match that swallowed following lines suppresses their line starts). -/
def annexFindall (atStart : Bool) (s : List Char) : List (List Char) :=
  annexFindallF s.length atStart s

/-- The annex block of `process_pdf`: the findall captures inside the
captured section, or `[]` when the label is absent. -/
def annexesOf (text : List Char) : List (List Char) :=
  match annexSearch text with
  | some sec => annexFindall true sec
  | none => []

/-- One output row (the dictionary built in `process_pdf`). -/
structure Record where
  nombre : List Char
  fecha : List Char
  asunto : List Char
  anexo : List Char
  referencias : List Char
deriving DecidableEq

/-- The field-extraction logic of `process_pdf` applied to a document's
text (everything after the empty-text guard): extract the five fields and
expand one row per annex, or a single row with the annex sentinel.
`Except.error` models the uncaught exception of the date reassembly. -/
def processText (text : List Char) : Except Unit (List Record) :=
  let docName := extractFieldWithRegex nameSearch text
  let dateMatch := extractFieldWithRegex dateSearch text
  match computeDate dateMatch with
  | .error e => .error e
  | .ok date =>
    let subject := extractFieldWithRegex subjSearch text
    let references := refsField text
    let annexes := annexesOf text
    let rows := annexes.map (fun a =>
      { nombre := docName, fecha := date, asunto := subject,
        anexo := a, referencias := references : Record })
    .ok (if rows.isEmpty then
      [{ nombre := docName, fecha := date, asunto := subject,
         anexo := "No encontrado".data, referencias := references }]
    else rows)

/-- `extract_text_from_pdf`: the PyPDF2 collaborator is modelled as an
oracle `reader`; `none` models any raised exception, which the function
catches, turning it into the empty string. -/
def extractTextFromPdf (reader : String → Option (List Char)) (pdfPath : String) :
    List Char :=
  match reader pdfPath with
  | some t => t
  | none => []

/-- `process_pdf`: read the text; an empty text yields no rows at all. -/
def processPdf (reader : String → Option (List Char)) (pdfPath : String) :
    Except Unit (List Record) :=
  let text := extractTextFromPdf reader pdfPath
  if text.isEmpty then .ok []
  else processText text

/-- `filename.lower().endswith(".pdf")`. -/
def isPdfName (filename : String) : Bool :=
  ".pdf".data.isSuffixOf (pyLower filename.data)

/-- `process_directory`: fold over the directory listing, keeping only the
`.pdf`-named entries, concatenating each file's rows in order. -/
def processDirectory (reader : String → Option (List Char)) :
    List String → Except Unit (List Record)
  | [] => .ok []
  | f :: fs =>
    if isPdfName f then
      match processPdf reader f with
      | .error e => .error e
      | .ok rs =>
        match processDirectory reader fs with
        | .error e => .error e
        | .ok rest => .ok (rs ++ rest)
    else processDirectory reader fs

/-- The process environment, as seen through `environs`. -/
def EnvMap : Type := String → Option String

/-- `env.str(k)`: the value, or the `EnvError` raised by `environs` for an
unset variable (its message names only that variable). -/
def envStr (e : EnvMap) (k : String) : Except String String :=
  match e k with
  | some v => .ok v
  | none => .error ("Environment variable " ++ k ++ " not set")

/-- The required settings listed in `verify_environment_variables`. -/
def requiredVars : List String := ["SERVER_ROUTE", "DOWNLOAD_ROUTE"]

/-- `verify_environment_variables`: probe every required variable,
collecting the missing ones, and raise one combined message when any are
missing.  (Defined in the source but never called by the startup code.) -/
def verifyEnvironmentVariables (e : EnvMap) : Except String Unit :=
  let missingVars := requiredVars.filter (fun v => (e v).isNone)
  if missingVars.isEmpty then .ok ()
  else .error ("Faltan las siguientes variables de entorno: " ++
    String.intercalate ", " missingVars)

/-- The module-level startup code (the bottom of `main.py`): resolve
`SERVER_ROUTE`, then `DOWNLOAD_ROUTE`, then process the directory and
produce the output path.  Faithful to the source, it does NOT call
`verifyEnvironmentVariables`, so a missing first variable aborts before the
second is even probed. -/
def moduleStartup (e : EnvMap) (listdir : String → List String)
    (reader : String → Option (List Char)) :
    Except String (List Record × String) := do
  let directory ← envStr e "SERVER_ROUTE"
  let downloadRoute ← envStr e "DOWNLOAD_ROUTE"
  let df ← (processDirectory reader (listdir directory)).mapError
    (fun _ => "uncaught extraction exception")
  pure (df, downloadRoute ++ "/datos_pdfs.xlsx")

/-- Python `str.split("\n")` (used only to state line-level properties of
the captured annex section). -/
def splitNl : List Char → List (List Char)
  | [] => [[]]
  | c :: rest =>
    if c = '\n' then [] :: splitNl rest
    else
      match splitNl rest with
      | [] => [[c]]
      | h :: t => (c :: h) :: t

/-- The per-line reading of one findall match of `^-\s*(.+)$`: a line
starting with `-` contributes the remainder after the dash and any
following whitespace, provided that remainder is nonempty. -/
def lineItem (l : List Char) : Option (List Char) :=
  match l with
  | [] => none
  | c :: rest =>
    if c = '-' then
      if (rest.dropWhile isSpaceC).isEmpty then none
      else some (rest.dropWhile isSpaceC)
    else none

/-- Modelled from the claim's words, for comparison with the code: "the
annex items are exactly the lines beginning with `- ` within the text
captured after the label" — the lines themselves, kept whole, filtered on
the two-character `- ` required at their start. -/
def claimAnnexItems (text : List Char) : List (List Char) :=
  match annexSearch text with
  | some cap => (splitNl cap).filter (fun l => "- ".data.isPrefixOf l)
  | none => []

/-- Modelled from the spec's words: a string in `DD-MM-YYYY` form — ten
characters, two day digits, two month digits, four year digits, separated
by hyphens. -/
def isDDMMYYYY : List Char → Bool
  | [d1, d2, h1, m1, m2, h2, y1, y2, y3, y4] =>
    d1.isDigit && d2.isDigit && h1 = '-' && m1.isDigit && m2.isDigit &&
    h2 = '-' && y1.isDigit && y2.isDigit && y3.isDigit && y4.isDigit
  | _ => false

/-- Modelled from the claim's words, for comparison with the code: the
references field "obtained by capturing the text after the label up to the
next newline or end of input, splitting that capture on the delimiter
`- `, trimming each piece, dropping empty pieces, and joining the result
with `, `" — an unconditional join, with no sentinel when nothing
survives the trimming. -/
def claimRefsJoin (text : List Char) : Option (List Char) :=
  (refsSearch text).map (fun cap =>
    List.intercalate ", ".data (((splitDash cap).map pyStrip).filter (· ≠ [])))

deriving instance DecidableEq for Except

/-! ### General helper lemmas -/

theorem dropWhileLenLe {α : Type} (p : α → Bool) :
    ∀ l : List α, (l.dropWhile p).length ≤ l.length := by
  intro l
  induction l with
  | nil => simp
  | cons c rest ih =>
    rw [List.dropWhile_cons]
    by_cases h : p c = true
    · simp only [h, if_true]
      exact Nat.le_succ_of_le ih
    · simp [h]

theorem splitAtNl_none {s : List Char} (h : '\n' ∉ s) : splitAtNl s = none := by
  induction s with
  | nil => rfl
  | cons c rest ih =>
    simp only [List.mem_cons, not_or] at h
    simp only [splitAtNl]
    rw [if_neg (fun hc => h.1 hc.symm), ih h.2]
    rfl

theorem splitAtNl_some {s l1 after : List Char}
    (h : splitAtNl s = some (l1, after)) :
    s = l1 ++ '\n' :: after ∧ '\n' ∉ l1 := by
  induction s generalizing l1 after with
  | nil => simp [splitAtNl] at h
  | cons c rest ih =>
    simp only [splitAtNl] at h
    by_cases hc : c = '\n'
    · rw [if_pos hc] at h
      simp only [Option.some.injEq, Prod.mk.injEq] at h
      obtain ⟨h1, h2⟩ := h
      subst h1; subst h2; subst hc
      simp
    · rw [if_neg hc] at h
      cases hsp : splitAtNl rest with
      | none => rw [hsp] at h; simp at h
      | some p =>
        rw [hsp] at h
        simp only [Option.map_some', Option.some.injEq, Prod.mk.injEq] at h
        obtain ⟨h1, h2⟩ := h
        obtain ⟨hr, hm⟩ := @ih p.1 p.2 (by rw [hsp])
        subst h2
        rw [← h1]
        constructor
        · simp only [List.cons_append, List.cons.injEq, true_and]
          rw [hr]
        · simp only [List.mem_cons, not_or]
          exact ⟨fun hx => hc hx.symm, hm⟩

theorem lazyToNewline_none {s : List Char} (h : '\n' ∉ s) :
    lazyToNewline s = none := by
  cases s with
  | nil => rfl
  | cons c rest =>
    simp only [List.mem_cons, not_or] at h
    simp only [lazyToNewline]
    rw [if_neg (fun hc => h.1 hc.symm), splitAtNl_none h.2]
    rfl

theorem matchTailNS_none {s : List Char} (h : '\n' ∉ s) :
    matchTailNS s = none := by
  induction s with
  | nil => rfl
  | cons c rest ih =>
    have hc : ¬ ('\n' = c) := by
      simp only [List.mem_cons, not_or] at h
      exact h.1
    have hrest : '\n' ∉ rest := by
      simp only [List.mem_cons, not_or] at h
      exact h.2
    simp only [matchTailNS]
    by_cases hs : isSpaceC c = true
    · rw [if_pos hs, ih hrest]
      exact lazyToNewline_none h
    · rw [if_neg hs]
      exact lazyToNewline_none h

theorem mem_drop {α : Type} {a : α} {l : List α} {n : Nat}
    (h : a ∈ l.drop n) : a ∈ l :=
  List.drop_subset n l h

theorem matchLabelAt_none_noNl {l1 l2 s : List Char} (h : '\n' ∉ s) :
    matchLabelAt l1 l2 s = none := by
  simp only [matchLabelAt, stripLit]
  have h1 : ∀ n : Nat, matchTailNS (s.drop n) = none := fun n =>
    matchTailNS_none (fun hm => h (mem_drop hm))
  by_cases hp1 : l1.isPrefixOf s <;> by_cases hp2 : l2.isPrefixOf s <;>
    simp [hp1, hp2, h1]

theorem labelSearch_none_noNl {l1 l2 s : List Char} (h : '\n' ∉ s) :
    labelSearch l1 l2 s = none := by
  induction s with
  | nil => rfl
  | cons c rest ih =>
    have hrest : '\n' ∉ rest := by
      simp only [List.mem_cons, not_or] at h
      exact h.2
    simp only [labelSearch]
    rw [matchLabelAt_none_noNl h, ih hrest]

theorem matchLabelAt_none_of_no_lit {l1 l2 s : List Char}
    (h1 : l1.isPrefixOf s = false) (h2 : l2.isPrefixOf s = false) :
    matchLabelAt l1 l2 s = none := by
  simp [matchLabelAt, stripLit, h1, h2]

theorem labelSearch_none_of_not_contains {l1 l2 s : List Char}
    (h1 : containsSub l1 s = false) (h2 : containsSub l2 s = false) :
    labelSearch l1 l2 s = none := by
  induction s with
  | nil => rfl
  | cons c rest ih =>
    simp only [containsSub, Bool.or_eq_false_iff] at h1 h2
    simp only [labelSearch]
    rw [matchLabelAt_none_of_no_lit h1.1 h2.1, ih h1.2 h2.2]

theorem sectionSearch_none_of_not_contains {label s : List Char}
    {tail : List Char → List Char} (h : containsSub label s = false) :
    sectionSearch label tail s = none := by
  induction s with
  | nil => rfl
  | cons c rest ih =>
    simp only [containsSub, Bool.or_eq_false_iff] at h
    simp only [sectionSearch, stripLit]
    rw [h.1]
    simp only [Bool.false_eq_true, if_false]
    exact ih h.2

/-! ### Findall infrastructure: fuel irrelevance and step equations -/

theorem annexTailMatch_after_le :
    ∀ s cap after, annexTailMatch s = some (cap, after) → after.length ≤ s.length := by
  intro s
  induction s with
  | nil => intro cap after h; simp [annexTailMatch] at h
  | cons c rest ih =>
    intro cap after h
    simp only [annexTailMatch] at h
    by_cases hc : isSpaceC c = true
    · simp only [hc, if_true] at h
      cases hr : annexTailMatch rest with
      | some r =>
        rw [hr] at h
        simp only [Option.some.injEq] at h
        have := ih r.1 r.2 (by rw [hr])
        cases h
        exact Nat.le_succ_of_le this
      | none =>
        rw [hr] at h
        by_cases hnl : c = '\n'
        · simp [hnl] at h
        · simp only [hnl, if_neg, ite_false] at h
          simp only [takeToEol, Option.some.injEq, Prod.mk.injEq] at h
          obtain ⟨-, h2⟩ := h
          rw [← h2]
          exact dropWhileLenLe _ _
    · simp only [hc] at h
      simp only [Bool.false_eq_true, if_false, takeToEol, Option.some.injEq,
        Prod.mk.injEq] at h
      obtain ⟨-, h2⟩ := h
      rw [← h2]
      exact dropWhileLenLe _ _

theorem annexFindallF_nil (fuel : Nat) (atStart : Bool) :
    annexFindallF fuel atStart [] = [] := by
  cases fuel <;> rfl

theorem annexFindallF_fuel :
    ∀ n f1 f2 (atStart : Bool) (s : List Char), s.length ≤ n → s.length ≤ f1 →
      s.length ≤ f2 → annexFindallF f1 atStart s = annexFindallF f2 atStart s := by
  intro n
  induction n with
  | zero =>
    intro f1 f2 atStart s h0 _ _
    have hs : s = [] := List.length_eq_zero.mp (Nat.le_zero.mp h0)
    subst hs
    rw [annexFindallF_nil, annexFindallF_nil]
  | succ n ih =>
    intro f1 f2 atStart s hn h1 h2
    cases s with
    | nil => rw [annexFindallF_nil, annexFindallF_nil]
    | cons c rest =>
      cases f1 with
      | zero => simp at h1
      | succ f1 =>
        cases f2 with
        | zero => simp at h2
        | succ f2 =>
          simp only [List.length_cons, Nat.succ_le_succ_iff] at hn h1 h2
          simp only [annexFindallF]
          by_cases hd : (atStart && c = '-') = true
          · rw [if_pos hd, if_pos hd]
            cases hm : annexTailMatch rest with
            | some p =>
              obtain ⟨cap, after⟩ := p
              have hal := annexTailMatch_after_le rest cap after hm
              simp only [List.cons.injEq, true_and]
              exact ih f1 f2 false after (le_trans hal hn) (le_trans hal h1)
                (le_trans hal h2)
            | none => exact ih f1 f2 _ rest hn h1 h2
          · rw [if_neg hd, if_neg hd]
            exact ih f1 f2 _ rest hn h1 h2

theorem annexFindall_eq_fuel {fuel : Nat} {atStart : Bool} {s : List Char}
    (h : s.length ≤ fuel) : annexFindall atStart s = annexFindallF fuel atStart s :=
  annexFindallF_fuel s.length s.length fuel atStart s le_rfl le_rfl h

theorem annexFindall_nil (atStart : Bool) : annexFindall atStart [] = [] := rfl

theorem annexFindall_cons (atStart : Bool) (c : Char) (rest : List Char) :
    annexFindall atStart (c :: rest) =
      if atStart && c = '-' then
        match annexTailMatch rest with
        | some (cap, after) => cap :: annexFindall false after
        | none => annexFindall (c = '\n') rest
      else annexFindall (c = '\n') rest := by
  show annexFindallF (rest.length + 1) atStart (c :: rest) = _
  simp only [annexFindallF]
  by_cases hd : (atStart && c = '-') = true
  · rw [if_pos hd, if_pos hd]
    cases hm : annexTailMatch rest with
    | some p =>
      obtain ⟨cap, after⟩ := p
      have hal := annexTailMatch_after_le rest cap after hm
      simp only [List.cons.injEq, true_and]
      exact (annexFindall_eq_fuel hal).symm
    | none => exact (annexFindall_eq_fuel le_rfl).symm
  · rw [if_neg hd, if_neg hd]
    exact (annexFindall_eq_fuel le_rfl).symm

/-! ### Lines of the captured annex section -/

theorem splitNl_of_none {s : List Char} (h : splitAtNl s = none) :
    splitNl s = [s] := by
  induction s with
  | nil => rfl
  | cons c rest ih =>
    simp only [splitAtNl] at h
    by_cases hc : c = '\n'
    · rw [if_pos hc] at h; simp at h
    · rw [if_neg hc] at h
      cases hsp : splitAtNl rest with
      | some p => rw [hsp] at h; simp at h
      | none =>
        simp only [splitNl, if_neg hc, ih hsp]

theorem splitNl_of_some {s l1 after : List Char}
    (h : splitAtNl s = some (l1, after)) :
    splitNl s = l1 :: splitNl after := by
  induction s generalizing l1 with
  | nil => simp [splitAtNl] at h
  | cons c rest ih =>
    simp only [splitAtNl] at h
    by_cases hc : c = '\n'
    · rw [if_pos hc] at h
      simp only [Option.some.injEq, Prod.mk.injEq] at h
      obtain ⟨h1, h2⟩ := h
      subst h1; subst h2; subst hc
      simp [splitNl]
    · rw [if_neg hc] at h
      cases hsp : splitAtNl rest with
      | none => rw [hsp] at h; simp at h
      | some p =>
        obtain ⟨p1, p2⟩ := p
        rw [hsp] at h
        simp only [Option.map_some', Option.some.injEq, Prod.mk.injEq] at h
        obtain ⟨h1, h2⟩ := h
        subst h2
        have := @ih p1 hsp
        simp only [splitNl, if_neg hc, this, ← h1]

theorem takeWhile_append_all {p : Char → Bool} :
    ∀ a b : List Char, (∀ x ∈ a, p x = true) →
      (a ++ b).takeWhile p = a ++ b.takeWhile p := by
  intro a b h
  induction a with
  | nil => simp
  | cons x a ih =>
    have hx : p x = true := h x (by simp)
    simp only [List.cons_append, List.takeWhile_cons, hx, if_true]
    rw [ih (fun y hy => h y (by simp [hy]))]

theorem dropWhile_append_all {p : Char → Bool} :
    ∀ a b : List Char, (∀ x ∈ a, p x = true) →
      (a ++ b).dropWhile p = b.dropWhile p := by
  intro a b h
  induction a with
  | nil => simp
  | cons x a ih =>
    have hx : p x = true := h x (by simp)
    simp only [List.cons_append, List.dropWhile_cons, hx, if_true]
    exact ih (fun y hy => h y (by simp [hy]))

theorem splitAtNl_none_iff {s : List Char} : splitAtNl s = none ↔ '\n' ∉ s := by
  induction s with
  | nil => simp [splitAtNl]
  | cons c rest ih =>
    simp only [splitAtNl]
    by_cases hc : c = '\n'
    · subst hc
      simp
    · rw [if_neg hc]
      simp only [Option.map_eq_none', ih, List.mem_cons, not_or]
      constructor
      · exact fun h => ⟨fun he => hc he.symm, h⟩
      · exact fun h => h.2

theorem annexTailMatch_line :
    ∀ (l1 suffix : List Char), '\n' ∉ l1 →
      l1.dropWhile isSpaceC ≠ [] →
      (suffix = [] ∨ ∃ t, suffix = '\n' :: t) →
      annexTailMatch (l1 ++ suffix) = some (l1.dropWhile isSpaceC, suffix) := by
  intro l1
  induction l1 with
  | nil =>
    intro suffix _ hne _
    simp at hne
  | cons x l1 ih =>
    intro suffix hnl hne hsuf
    have hxnl : ('\n' : Char) ≠ x := by
      intro h
      exact hnl (by rw [h]; simp)
    have hl1 : '\n' ∉ l1 := fun h => hnl (by simp [h])
    by_cases hx : isSpaceC x = true
    · have hdw : (x :: l1).dropWhile isSpaceC = l1.dropWhile isSpaceC := by
        simp [List.dropWhile_cons, hx]
      rw [hdw] at hne ⊢
      simp only [List.cons_append, List.append_eq, annexTailMatch, hx, if_true]
      rw [ih suffix hl1 hne hsuf]
    · have hdw : (x :: l1).dropWhile isSpaceC = x :: l1 := by
        simp [List.dropWhile_cons, hx]
      rw [hdw]
      have hpx : (decide ¬(x = '\n')) = true := by
        simp only [decide_not, Bool.not_eq_true', decide_eq_false_iff_not]
        exact fun he => hxnl he.symm
      have hall : ∀ y ∈ l1, (fun y => decide ¬(y = '\n')) y = true := by
        intro y hy
        simp only [decide_not, Bool.not_eq_true', decide_eq_false_iff_not]
        exact fun he => hl1 (he ▸ hy)
      have hsw : suffix.takeWhile (fun y => decide ¬(y = '\n')) = [] := by
        rcases hsuf with h | ⟨t, ht⟩
        · rw [h]; rfl
        · subst ht
          rw [List.takeWhile_cons, if_neg (by decide)]
      have hsd : suffix.dropWhile (fun y => decide ¬(y = '\n')) = suffix := by
        rcases hsuf with h | ⟨t, ht⟩
        · rw [h]; rfl
        · subst ht
          rw [List.dropWhile_cons, if_neg (by decide)]
      simp only [List.cons_append, List.append_eq, annexTailMatch, hx, Bool.false_eq_true,
        if_false, takeToEol, Option.some.injEq, Prod.mk.injEq]
      constructor
      · rw [List.takeWhile_cons, if_pos hpx, takeWhile_append_all l1 suffix hall, hsw,
          List.append_nil]
      · rw [List.dropWhile_cons, if_pos hpx, dropWhile_append_all l1 suffix hall, hsd]

theorem annexFindall_skipline :
    ∀ s : List Char, annexFindall false s =
      match splitAtNl s with
      | none => []
      | some (_, after) => annexFindall true after := by
  intro s
  induction s with
  | nil => rfl
  | cons c rest ih =>
    rw [annexFindall_cons]
    simp only [Bool.false_and, Bool.false_eq_true, if_false]
    by_cases hc : c = '\n'
    · subst hc
      have h1 : (decide (('\n' : Char) = '\n')) = true := by decide
      rw [h1]
      have h2 : splitAtNl ('\n' :: rest) = some ([], rest) := by
        simp [splitAtNl]
      rw [h2]
    · rw [decide_eq_false hc, ih]
      simp only [splitAtNl]
      rw [if_neg hc]
      cases hsp : splitAtNl rest with
      | none => rfl
      | some p => rfl

theorem annexFindall_lines :
    ∀ (n : Nat) (cap : List Char), cap.length ≤ n →
      (∀ l ∈ splitNl cap, ∀ r, l = '-' :: r → r.dropWhile isSpaceC ≠ []) →
      annexFindall true cap = (splitNl cap).filterMap lineItem := by
  intro n
  induction n with
  | zero =>
    intro cap h0 _
    have hc : cap = [] := List.length_eq_zero.mp (Nat.le_zero.mp h0)
    subst hc
    simp [annexFindall_nil, splitNl, lineItem]
  | succ n ih =>
    intro cap hlen hgood
    cases cap with
    | nil => simp [annexFindall_nil, splitNl, lineItem]
    | cons c rest =>
      simp only [List.length_cons, Nat.succ_le_succ_iff] at hlen
      rw [annexFindall_cons]
      by_cases hc : c = '\n'
      · subst hc
        have hcond : ¬ ((true && decide (('\n' : Char) = '-')) = true) := by decide
        rw [if_neg hcond, decide_eq_true rfl]
        have hsp : splitNl ('\n' :: rest) = [] :: splitNl rest := by
          simp [splitNl]
        rw [hsp]
        simp only [List.filterMap_cons]
        have hli : lineItem [] = none := rfl
        rw [hli]
        exact ih rest hlen (by
          intro l hl r hr
          exact hgood l (by rw [hsp]; exact List.mem_cons_of_mem _ hl) r hr)
      · by_cases hd : c = '-'
        · subst hd
          have hcond : (true && decide (('-' : Char) = '-')) = true := by decide
          rw [if_pos hcond]
          cases hsp : splitAtNl rest with
          | none =>
            have hnn : '\n' ∉ rest := splitAtNl_none_iff.mp hsp
            have hcapnl : splitAtNl ('-' :: rest) = none := by
              apply splitAtNl_none_iff.mpr
              intro h
              rcases List.mem_cons.mp h with h | h
              · exact absurd h (by decide)
              · exact hnn h
            have hlines : splitNl ('-' :: rest) = ['-' :: rest] :=
              splitNl_of_none hcapnl
            have hgr : rest.dropWhile isSpaceC ≠ [] :=
              hgood ('-' :: rest) (by rw [hlines]; simp) rest rfl
            have htm : annexTailMatch rest = some (rest.dropWhile isSpaceC, []) := by
              have := annexTailMatch_line rest [] hnn hgr (Or.inl rfl)
              rwa [List.append_nil] at this
            have hEm : (rest.dropWhile isSpaceC).isEmpty = false := by
              cases hdd : rest.dropWhile isSpaceC with
              | nil => exact absurd hdd hgr
              | cons a b => rfl
            have hli : lineItem ('-' :: rest) = some (rest.dropWhile isSpaceC) := by
              show (if ('-' : Char) = '-' then
                      if (rest.dropWhile isSpaceC).isEmpty then none
                      else some (rest.dropWhile isSpaceC)
                    else none) = _
              rw [if_pos rfl, hEm]
              rfl
            rw [htm]
            show rest.dropWhile isSpaceC :: annexFindall false [] =
              List.filterMap lineItem (splitNl ('-' :: rest))
            rw [annexFindall_nil, hlines]
            simp only [List.filterMap_cons, hli, List.filterMap_nil]
          | some p =>
            obtain ⟨l1, after⟩ := p
            obtain ⟨hrest, hnl1⟩ := splitAtNl_some hsp
            have hcapsp : splitAtNl ('-' :: rest) = some ('-' :: l1, after) := by
              simp only [splitAtNl]
              rw [if_neg hc, hsp]
              rfl
            have hlines : splitNl ('-' :: rest) = ('-' :: l1) :: splitNl after :=
              splitNl_of_some hcapsp
            have hgr : l1.dropWhile isSpaceC ≠ [] :=
              hgood ('-' :: l1) (by rw [hlines]; simp) l1 rfl
            have htm : annexTailMatch rest = some (l1.dropWhile isSpaceC, '\n' :: after) := by
              rw [hrest]
              exact annexTailMatch_line l1 ('\n' :: after) hnl1 hgr (Or.inr ⟨after, rfl⟩)
            have hskip : annexFindall false ('\n' :: after) = annexFindall true after := by
              rw [annexFindall_skipline]
              simp [splitAtNl]
            have hEm : (l1.dropWhile isSpaceC).isEmpty = false := by
              cases hdd : l1.dropWhile isSpaceC with
              | nil => exact absurd hdd hgr
              | cons a b => rfl
            have hli : lineItem ('-' :: l1) = some (l1.dropWhile isSpaceC) := by
              show (if ('-' : Char) = '-' then
                      if (l1.dropWhile isSpaceC).isEmpty then none
                      else some (l1.dropWhile isSpaceC)
                    else none) = _
              rw [if_pos rfl, hEm]
              rfl
            have hlal : after.length ≤ n := by
              have : rest.length = l1.length + (after.length + 1) := by
                rw [hrest]; simp
              omega
            have hga : ∀ l ∈ splitNl after, ∀ r, l = '-' :: r →
                r.dropWhile isSpaceC ≠ [] := by
              intro l hl r hr
              exact hgood l (by rw [hlines]; exact List.mem_cons_of_mem _ hl) r hr
            rw [htm]
            show l1.dropWhile isSpaceC :: annexFindall false ('\n' :: after) =
              List.filterMap lineItem (splitNl ('-' :: rest))
            rw [hskip, hlines]
            simp only [List.filterMap_cons, hli]
            rw [ih after hlal hga]
        · have hcond : ¬ ((true && decide (c = '-')) = true) := by simp [hd]
          rw [if_neg hcond, decide_eq_false hc, annexFindall_skipline]
          cases hsp : splitAtNl rest with
          | none =>
            have hcapnl : splitAtNl (c :: rest) = none := by
              simp only [splitAtNl]
              rw [if_neg hc, hsp]
              rfl
            rw [splitNl_of_none hcapnl]
            simp only [List.filterMap_cons, List.filterMap_nil]
            have hli : lineItem (c :: rest) = none := by
              simp only [lineItem]
              rw [if_neg hd]
            rw [hli]
          | some p =>
            obtain ⟨l1, after⟩ := p
            obtain ⟨hrest, -⟩ := splitAtNl_some hsp
            have hcapsp : splitAtNl (c :: rest) = some (c :: l1, after) := by
              simp only [splitAtNl]
              rw [if_neg hc, hsp]
              rfl
            have hlines : splitNl (c :: rest) = (c :: l1) :: splitNl after :=
              splitNl_of_some hcapsp
            rw [hlines]
            simp only [List.filterMap_cons]
            have hli : lineItem (c :: l1) = none := by
              simp only [lineItem]
              rw [if_neg hd]
            rw [hli]
            have hlal : after.length ≤ n := by
              have : rest.length = l1.length + (after.length + 1) := by
                rw [hrest]; simp
              omega
            have hga : ∀ l ∈ splitNl after, ∀ r, l = '-' :: r →
                r.dropWhile isSpaceC ≠ [] := by
              intro l hl r hr
              exact hgood l (by rw [hlines]; exact List.mem_cons_of_mem _ hl) r hr
            exact ih after hlal hga

theorem sectionSearch_some {label cap : List Char} {tail : List Char → List Char} :
    ∀ {s : List Char}, sectionSearch label tail s = some cap →
      ∃ after, cap = tail after := by
  intro s
  induction s with
  | nil => intro h; simp [sectionSearch] at h
  | cons c rest ih =>
    intro h
    simp only [sectionSearch] at h
    cases hsl : stripLit label (c :: rest) with
    | some after =>
      rw [hsl] at h
      simp only [Option.some.injEq] at h
      exact ⟨after, h.symm⟩
    | none =>
      rw [hsl] at h
      exact ih h

theorem takeUntilAnnexEnd_no_blank :
    ∀ s : List Char, containsSub ('\n' :: '\n' :: []) (takeUntilAnnexEnd s) = false := by
  intro s
  induction s with
  | nil => rfl
  | cons c rest ih =>
    by_cases hcond : (c = '\n' && (rest.isEmpty || rest.head? == some '\n')) = true
    · simp only [takeUntilAnnexEnd, hcond, if_true]
      rfl
    · simp only [takeUntilAnnexEnd]
      rw [if_neg hcond]
      simp only [containsSub, ih, Bool.or_false]
      by_cases hc : c = '\n'
      · subst hc
        simp only [Bool.and_eq_true, Bool.or_eq_true, decide_eq_true_eq,
          not_and, not_or] at hcond
        have hcond2 := hcond trivial
        cases rest with
        | nil => simp at hcond2
        | cons r rest2 =>
          have hr : ¬ (r = '\n') := by
            intro he
            subst he
            exact hcond2.2 (by simp)
          simp only [takeUntilAnnexEnd]
          rw [if_neg (by simp [hr])]
          show (('\n' == '\n') && (('\n' == r) && List.isPrefixOf [] _)) = false
          have : ('\n' == r) = false := by
            cases hb : ('\n' == r)
            · rfl
            · exact absurd (eq_comm.mp (eq_of_beq hb)) hr
          rw [this]
          simp
      · show (('\n' == c) && _) = false
        have : ('\n' == c) = false := by
          cases hb : ('\n' == c)
          · rfl
          · exact absurd (eq_comm.mp (eq_of_beq hb)) hc
        rw [this]
        simp

/-! ## Claim theorems -/

/-- C10: the name and subject patterns require a terminating newline after
the captured text, so in any text without a newline — in particular one
whose `Oficio Nro.`/`Memorando Nro.` or `Asunto:` label sits on a final
line with no trailing newline — both fields are the `No encontrado`
sentinel even when label and value are present. -/
theorem c10_requires_newline (t : List Char) (h : '\n' ∉ t) :
    extractFieldWithRegex nameSearch t = "No encontrado".data ∧
    extractFieldWithRegex subjSearch t = "No encontrado".data := by
  have h1 : nameSearch t = none := labelSearch_none_noNl h
  have h2 : subjSearch t = none := labelSearch_none_noNl h
  constructor
  · simp [extractFieldWithRegex, h1]
  · simp [extractFieldWithRegex, h2]

theorem c10_witness :
    '\n' ∉ "Oficio Nro. ABC-123 Asunto: Hello".data ∧
    extractFieldWithRegex nameSearch "Oficio Nro. ABC-123 Asunto: Hello".data =
      "No encontrado".data ∧
    extractFieldWithRegex subjSearch "Oficio Nro. ABC-123 Asunto: Hello".data =
      "No encontrado".data := by
  refine ⟨by decide, ?_, ?_⟩
  · exact (c10_requires_newline "Oficio Nro. ABC-123 Asunto: Hello".data (by decide)).1
  · exact (c10_requires_newline "Oficio Nro. ABC-123 Asunto: Hello".data (by decide)).2

/-- C3 (evidence of the code bug): with both required settings unset, the
module-level startup fails before touching any directory, but its error
names only `SERVER_ROUTE` — the first variable probed — and does not
mention `DOWNLOAD_ROUTE`; the `verifyEnvironmentVariables` function that
would have produced the combined message exists but is never called by the
startup code. -/
theorem c3_startup_error_names_only_first :
    (∀ (listdir : String → List String) (reader : String → Option (List Char)),
      moduleStartup (fun _ => none) listdir reader =
        .error "Environment variable SERVER_ROUTE not set") ∧
    containsSub "DOWNLOAD_ROUTE".data
      "Environment variable SERVER_ROUTE not set".data = false ∧
    verifyEnvironmentVariables (fun _ => none) =
      .error "Faltan las siguientes variables de entorno: SERVER_ROUTE, DOWNLOAD_ROUTE" := by
  refine ⟨fun listdir reader => rfl, by decide, by decide⟩

/-- C8: a file whose text extraction fails (the reader raises, modelled by
`none`) or yields empty text contributes exactly zero records, and the
batch result over the remaining files is unchanged — the run continues. -/
theorem c8_failed_file_contributes_nothing
    (reader : String → Option (List Char)) (f : String)
    (h : reader f = none ∨ reader f = some []) :
    processPdf reader f = .ok [] ∧
    ∀ a b : List String,
      processDirectory reader (a ++ f :: b) = processDirectory reader (a ++ b) := by
  have hpp : processPdf reader f = .ok [] := by
    rcases h with h | h <;> simp [processPdf, extractTextFromPdf, h]
  refine ⟨hpp, ?_⟩
  intro a b
  induction a with
  | nil =>
    simp only [List.nil_append]
    by_cases hp : isPdfName f = true
    · simp only [processDirectory]
      rw [if_pos hp, hpp]
      cases hb : processDirectory reader b with
      | error e => rfl
      | ok rest => simp
    · simp only [processDirectory]
      rw [if_neg hp]
  | cons x a ih =>
    simp only [List.cons_append, processDirectory, List.append_eq]
    rw [ih]

theorem c8_witness :
    processPdf (fun _ => none) "bad.pdf" = .ok [] ∧
    processDirectory (fun _ => none) (["a.pdf"] ++ "bad.pdf" :: ["b.pdf"]) =
      processDirectory (fun _ => none) (["a.pdf"] ++ ["b.pdf"]) := by
  have h := c8_failed_file_contributes_nothing (fun _ => none) "bad.pdf" (Or.inl rfl)
  exact ⟨h.1, h.2 ["a.pdf"] ["b.pdf"]⟩

/-- C5 counterexample: on "Referencias:" the label is present and the
capture is empty, so every piece is dropped by the trimming; the claim's
unconditional join then yields the empty string, while the code falls back
to the `No encontradas` sentinel (the `if references else` branch of
main.py line 77). -/
theorem c5_counterexample :
    refsField "Referencias:".data = "No encontradas".data ∧
    claimRefsJoin "Referencias:".data = some [] ∧
    some (refsField "Referencias:".data) ≠ claimRefsJoin "Referencias:".data := by
  exact ⟨by decide, by decide, by decide⟩

/-- C5 amended: references — the block captured after `Referencias:` (and
any following whitespace) up to the next newline or end of input is split
on `"- "`, each piece trimmed, empty pieces dropped and, when at least one
piece survives, the rest joined with `", "`; when nothing survives — and
when the label is absent — the field is the `No encontradas` sentinel.
The capture never contains a newline, and the spec's concrete example
holds with no empty entries. -/
theorem c5_references :
    (refsField "Referencias:\nA - B - C\n".data = "A, B, C".data) ∧
    (∀ t : List Char, containsSub "Referencias:".data t = false →
      refsField t = "No encontradas".data) ∧
    (∀ t cap : List Char, refsSearch t = some cap →
      '\n' ∉ cap ∧
      refsField t =
        (if (((splitDash cap).map pyStrip).filter (· ≠ [])).isEmpty
         then "No encontradas".data
         else List.intercalate ", ".data (((splitDash cap).map pyStrip).filter (· ≠ []))) ∧
      ∀ p ∈ ((splitDash cap).map pyStrip).filter (· ≠ []), p ≠ []) := by
  refine ⟨by decide, ?_, ?_⟩
  · intro t h
    have hn : refsSearch t = none := sectionSearch_none_of_not_contains h
    simp [refsField, hn]
  · intro t cap hsp
    refine ⟨?_, ?_, ?_⟩
    · obtain ⟨after, hcap⟩ := sectionSearch_some hsp
      subst hcap
      intro hmem
      have := List.mem_takeWhile_imp hmem
      simp at this
    · simp only [refsField, hsp]
    · intro p hp
      have := List.of_mem_filter hp
      simpa using this

theorem c5_witness :
    refsField "no label here".data = "No encontradas".data :=
  c5_references.2.1 "no label here".data (by decide)

/-- C4: when the date pattern matches but the month token (index 2 of the
`\d+|\w+` token list of the match) is not a key of the 12-entry Spanish
month mapping, the extraction raises — `processText` is an `Except.error`,
and a directory run hitting such a file aborts instead of producing a
sentinel date. -/
theorem c4_unknown_month_fatal (t dm p2 : List Char)
    (hdm : extractFieldWithRegex dateSearch t = dm)
    (hne : dm ≠ "No encontrado".data)
    (h2 : (tokens dm).get? 2 = some p2)
    (hml : monthsLookup (pyLower p2) = none) :
    processText t = .error () ∧
    ∀ (reader : String → Option (List Char)) (path : String) (fs : List String),
      isPdfName path = true → reader path = some t →
      processDirectory reader (path :: fs) = .error () := by
  have herr : computeDate dm = .error () := by
    simp only [computeDate]
    rw [if_pos hne]
    cases h0 : (tokens dm).get? 0 with
    | none => rfl
    | some p0 => simp only [h2, hml]
  have hpt : processText t = .error () := by
    simp only [processText, hdm, herr]
  refine ⟨hpt, ?_⟩
  intro reader path fs hpdf hrd
  have htne : t.isEmpty = false := by
    cases t with
    | nil =>
      exfalso
      apply hne
      rw [← hdm]
      rfl
    | cons a b => rfl
  have hpp : processPdf reader path = .error () := by
    simp only [processPdf, extractTextFromPdf, hrd, htne, Bool.false_eq_true, if_false]
    exact hpt
  simp only [processDirectory]
  rw [if_pos hpdf, hpp]

theorem c4_witness :
    extractFieldWithRegex dateSearch "1 de foo de 2021".data =
      "1 de foo de 2021".data ∧
    processText "1 de foo de 2021".data = .error () := by
  refine ⟨by decide, ?_⟩
  exact (c4_unknown_month_fatal "1 de foo de 2021".data "1 de foo de 2021".data
    "foo".data (by decide) (by decide) (by decide) (by decide)).1

/-- C2 counterexample: "El 5 de marzo de 2021\n" matches the date pattern
with a one-digit day; the produced date field is "5-03-2021", which is not
in DD-MM-YYYY form (the day is not zero-padded). -/
theorem c2_counterexample :
    (processText "El 5 de marzo de 2021\n".data).map (List.map Record.fecha) =
      .ok ["5-03-2021".data] ∧
    isDDMMYYYY "5-03-2021".data = false := by
  exact ⟨by decide, by decide⟩

/-- C2 amended: when the date pattern matches, the date field is
`parts[0]-months[parts[2].lower()]-parts[4]` with day and year exactly as
matched (no zero padding, so a one-digit day yields D-MM-YYYY rather than
DD-MM-YYYY); with no match the field is the `No encontrada` sentinel; and
"15 de marzo de 2021" yields "15-03-2021". -/
theorem c2_date_reassembly :
    (∀ t dm p0 p2 p4 mm : List Char,
      extractFieldWithRegex dateSearch t = dm →
      dm ≠ "No encontrado".data →
      (tokens dm).get? 0 = some p0 →
      (tokens dm).get? 2 = some p2 →
      (tokens dm).get? 4 = some p4 →
      monthsLookup (pyLower p2) = some mm →
      computeDate (extractFieldWithRegex dateSearch t) =
        .ok (p0 ++ '-' :: (mm ++ '-' :: p4))) ∧
    (∀ t : List Char, dateSearch t = none →
      computeDate (extractFieldWithRegex dateSearch t) = .ok "No encontrada".data) ∧
    (processText "15 de marzo de 2021\n".data).map (List.map Record.fecha) =
      .ok ["15-03-2021".data] := by
  refine ⟨?_, ?_, by decide⟩
  · intro t dm p0 p2 p4 mm hdm hne h0 h2 h4 hml
    rw [hdm]
    simp only [computeDate]
    rw [if_pos hne]
    simp only [h0, h2, h4, hml]
  · intro t h
    have hs : extractFieldWithRegex dateSearch t = "No encontrado".data := by
      simp [extractFieldWithRegex, h]
    rw [hs]
    decide

theorem c2_witness :
    computeDate (extractFieldWithRegex dateSearch "El 5 de marzo de 2021\n".data) =
      .ok ("5".data ++ '-' :: ("03".data ++ '-' :: "2021".data)) :=
  c2_date_reassembly.1 "El 5 de marzo de 2021\n".data "5 de marzo de 2021".data
    "5".data "marzo".data "2021".data "03".data
    (by decide) (by decide) (by decide) (by decide) (by decide) (by decide)

/-- C1 counterexample: on "1 de foo de 2021" the extraction raises (the
month token is not in the mapping), so it produces no records at all —
refuting "for every input text, extract returns at least one record". -/
theorem c1_counterexample :
    processText "1 de foo de 2021".data = .error () ∧
    ∀ rs : List Record, processText "1 de foo de 2021".data ≠ .ok rs := by
  have he : processText "1 de foo de 2021".data = .error () := by decide
  refine ⟨he, ?_⟩
  intro rs h
  rw [he] at h
  exact absurd h (by simp)

/-- C1 amended: whenever extraction completes without raising (the date
reassembly does not hit an unknown month), it returns at least one record —
one per annex item, with the items as the `anexo` fields, or a single
record with the annex sentinel when the item list is empty — and the name,
subject, references and date fields are identical across all records of the
same text. -/
theorem c1_row_expansion (t : List Char) (rs : List Record)
    (h : processText t = .ok rs) :
    rs ≠ [] ∧
    (annexesOf t = [] → rs.map Record.anexo = ["No encontrado".data] ∧
      rs.length = 1) ∧
    (annexesOf t ≠ [] → rs.map Record.anexo = annexesOf t ∧
      rs.length = (annexesOf t).length) ∧
    (∀ r ∈ rs, r.nombre = extractFieldWithRegex nameSearch t ∧
      r.asunto = extractFieldWithRegex subjSearch t ∧
      r.referencias = refsField t) ∧
    (∀ r ∈ rs, ∀ q ∈ rs, r.fecha = q.fecha) := by
  simp only [processText] at h
  cases hc : computeDate (extractFieldWithRegex dateSearch t) with
  | error e =>
    rw [hc] at h
    exact absurd h (by simp)
  | ok date =>
    rw [hc] at h
    simp only [Except.ok.injEq] at h
    subst h
    cases hx : annexesOf t with
    | nil =>
      simp only [List.map_nil, List.isEmpty_nil, if_true]
      refine ⟨by simp, fun _ => ⟨rfl, rfl⟩, fun hcon => absurd rfl hcon, ?_, ?_⟩
      · intro r hr
        simp only [List.mem_singleton] at hr
        subst hr
        exact ⟨rfl, rfl, rfl⟩
      · intro r hr q hq
        simp only [List.mem_singleton] at hr hq
        subst hr; subst hq; rfl
    | cons y ys =>
      simp only [List.map_cons, List.isEmpty_cons, Bool.false_eq_true, if_false]
      refine ⟨by simp, fun hcon => absurd hcon (by simp), fun _ => ⟨?_, ?_⟩, ?_, ?_⟩
      · rw [List.map_map]
        show y :: List.map (fun a => a) ys = y :: ys
        simp
      · simp
      · intro r hr
        rcases List.mem_cons.mp hr with rfl | hr2
        · exact ⟨rfl, rfl, rfl⟩
        · obtain ⟨a, -, rfl⟩ := List.mem_map.mp hr2
          exact ⟨rfl, rfl, rfl⟩
      · intro r hr q hq
        have hrf : r.fecha = date := by
          rcases List.mem_cons.mp hr with rfl | hr2
          · rfl
          · obtain ⟨a, -, rfl⟩ := List.mem_map.mp hr2
            rfl
        have hqf : q.fecha = date := by
          rcases List.mem_cons.mp hq with rfl | hq2
          · rfl
          · obtain ⟨a, -, rfl⟩ := List.mem_map.mp hq2
            rfl
        rw [hrf, hqf]

theorem c1_witness :
    processText "hello".data =
      .ok [{ nombre := "No encontrado".data, fecha := "No encontrada".data,
             asunto := "No encontrado".data, anexo := "No encontrado".data,
             referencias := "No encontradas".data }] ∧
    ([{ nombre := "No encontrado".data, fecha := "No encontrada".data,
        asunto := "No encontrado".data, anexo := "No encontrado".data,
        referencias := "No encontradas".data }] : List Record) ≠ [] := by
  refine ⟨by decide, ?_⟩
  exact (c1_row_expansion "hello".data _ (by decide)).1

/-- C6 counterexample: on "Anexos:\n- X" the code's annex items are the
post-dash captures (["X"]), not the "- "-prefixed lines themselves
(["- X"]) that the claim describes. -/
theorem c6_counterexample :
    annexesOf "Anexos:\n- X".data = ["X".data] ∧
    claimAnnexItems "Anexos:\n- X".data = ["- X".data] ∧
    annexesOf "Anexos:\n- X".data ≠ claimAnnexItems "Anexos:\n- X".data := by
  exact ⟨by decide, by decide, by decide⟩

/-- C6 amended: for a text containing "Anexos:", the captured section
(after the label and any following whitespace, up to the next blank line or
end of input) contains no blank line — so nothing after the first blank
line terminating the section contributes — and, provided every dash-line of
the section carries some non-whitespace after its dash, the annex items are
exactly the per-line captures: for each line starting with '-' (a following
space is not required), the nonempty remainder after the dash and any
following whitespace. -/
theorem c6_annex_items (t cap : List Char)
    (hsp : annexSearch t = some cap)
    (hgood : ∀ l ∈ splitNl cap, l.head? = some '-' →
      (l.drop 1).dropWhile isSpaceC ≠ []) :
    annexesOf t = (splitNl cap).filterMap lineItem ∧
    containsSub ('\n' :: '\n' :: []) cap = false := by
  have hgood2 : ∀ l ∈ splitNl cap, ∀ r, l = '-' :: r →
      r.dropWhile isSpaceC ≠ [] := by
    intro l hl r hr
    subst hr
    exact hgood _ hl rfl
  constructor
  · simp only [annexesOf, hsp]
    exact annexFindall_lines cap.length cap le_rfl hgood2
  · obtain ⟨after, hcap⟩ := sectionSearch_some hsp
    subst hcap
    exact takeUntilAnnexEnd_no_blank (after.dropWhile isSpaceC)

theorem c6_witness :
    annexSearch "Anexos:\n- X\n-Y\n\nafter\n- Z".data = some "- X\n-Y".data ∧
    annexesOf "Anexos:\n- X\n-Y\n\nafter\n- Z".data =
      (splitNl "- X\n-Y".data).filterMap lineItem := by
  refine ⟨by decide, ?_⟩
  exact (c6_annex_items "Anexos:\n- X\n-Y\n\nafter\n- Z".data "- X\n-Y".data
    (by decide) (by decide)).1

/-- C7: each field rule is independently tolerant of absence — a failed
match yields that field's sentinel, never an error (a text where every
pattern fails still yields one all-sentinel record) — and a text without
the `Asunto:` label keeps name, date, annex and references exactly as in
the same text with an `Asunto:` line inserted, differing only in the
subject field. -/
theorem c7_field_independence :
    (∀ t : List Char, containsSub "Asunto:".data t = false →
      containsSub "ASUNTO:".data t = false →
      extractFieldWithRegex subjSearch t = "No encontrado".data) ∧
    (∀ t : List Char, containsSub "Oficio Nro.".data t = false →
      containsSub "Memorando Nro.".data t = false →
      extractFieldWithRegex nameSearch t = "No encontrado".data) ∧
    (∀ t : List Char, dateSearch t = none →
      computeDate (extractFieldWithRegex dateSearch t) = .ok "No encontrada".data) ∧
    (∀ t : List Char, containsSub "Referencias:".data t = false →
      refsField t = "No encontradas".data) ∧
    (∀ t : List Char, containsSub "Anexos:".data t = false → annexesOf t = []) ∧
    (∀ t : List Char, nameSearch t = none → dateSearch t = none →
      subjSearch t = none → refsSearch t = none → annexSearch t = none →
      processText t = .ok [(⟨"No encontrado".data, "No encontrada".data,
        "No encontrado".data, "No encontrado".data,
        "No encontradas".data⟩ : Record)]) ∧
    (processText
        "Oficio Nro. A1\n2 de mayo de 2022\nReferencias:\nR1 - R2\nAnexos:\n- AX\n".data =
      .ok [(⟨"A1".data, "2-05-2022".data, "No encontrado".data, "AX".data,
        "R1, R2".data⟩ : Record)] ∧
     processText
        "Oficio Nro. A1\n2 de mayo de 2022\nAsunto: Tema\nReferencias:\nR1 - R2\nAnexos:\n- AX\n".data =
      .ok [(⟨"A1".data, "2-05-2022".data, "Tema".data, "AX".data,
        "R1, R2".data⟩ : Record)]) := by
  refine ⟨?_, ?_, ?_, ?_, ?_, ?_, by decide, by decide⟩
  · intro t h1 h2
    have hn : subjSearch t = none := labelSearch_none_of_not_contains h1 h2
    simp [extractFieldWithRegex, hn]
  · intro t h1 h2
    have hn : nameSearch t = none := labelSearch_none_of_not_contains h1 h2
    simp [extractFieldWithRegex, hn]
  · intro t h
    have hs : extractFieldWithRegex dateSearch t = "No encontrado".data := by
      simp [extractFieldWithRegex, h]
    rw [hs]
    decide
  · intro t h
    have hn : refsSearch t = none := sectionSearch_none_of_not_contains h
    simp [refsField, hn]
  · intro t h
    have hn : annexSearch t = none := sectionSearch_none_of_not_contains h
    simp [annexesOf, hn]
  · intro t hn hd hs hr ha
    have e1 : extractFieldWithRegex nameSearch t = "No encontrado".data := by
      simp [extractFieldWithRegex, hn]
    have e2 : extractFieldWithRegex dateSearch t = "No encontrado".data := by
      simp [extractFieldWithRegex, hd]
    have e3 : extractFieldWithRegex subjSearch t = "No encontrado".data := by
      simp [extractFieldWithRegex, hs]
    have e4 : refsField t = "No encontradas".data := by
      simp [refsField, hr]
    have e5 : annexesOf t = [] := by
      simp [annexesOf, ha]
    have e6 : computeDate "No encontrado".data = .ok "No encontrada".data := by
      decide
    simp only [processText, e1, e2, e3, e4, e5, e6, List.map_nil,
      List.isEmpty_nil, if_true]

theorem c7_witness :
    extractFieldWithRegex subjSearch "sin etiqueta".data = "No encontrado".data :=
  c7_field_independence.1 "sin etiqueta".data (by decide) (by decide)

/-- C9: the batch driver keeps exactly the entries whose lowercased name
ends in ".pdf" (non-PDF entries never affect the result), and concatenates
the per-file record lists in listing order (an error in an earlier file
pre-empts later ones, as in the source). -/
theorem c9_directory_order :
    (∀ (reader : String → Option (List Char)) (names : List String),
      processDirectory reader names =
        processDirectory reader (names.filter (fun n => isPdfName n))) ∧
    (∀ (reader : String → Option (List Char)) (a b : List String),
      processDirectory reader (a ++ b) =
        (processDirectory reader a).bind
          (fun ra => (processDirectory reader b).map (fun rb => ra ++ rb))) ∧
    isPdfName "Informe.PDF" = true ∧ isPdfName "scan.pDf" = true ∧
    isPdfName "notas.txt" = false := by
  refine ⟨?_, ?_, by decide, by decide, by decide⟩
  · intro reader names
    induction names with
    | nil => rfl
    | cons n ns ih =>
      simp only [List.filter_cons]
      by_cases hp : isPdfName n = true
      · rw [if_pos hp]
        simp only [processDirectory]
        rw [if_pos hp, if_pos hp, ih]
      · rw [if_neg hp]
        simp only [processDirectory]
        rw [if_neg hp]
        exact ih
  · intro reader a b
    induction a with
    | nil =>
      simp only [List.nil_append]
      cases hb : processDirectory reader b with
      | error e => rfl
      | ok rb => simp [processDirectory, Except.bind, Except.map]
    | cons x a ih =>
      simp only [List.cons_append, processDirectory, List.append_eq]
      by_cases hp : isPdfName x = true
      · rw [if_pos hp, if_pos hp]
        cases hx : processPdf reader x with
        | error e =>
          cases ha : processDirectory reader a <;>
            simp [Except.bind, Except.map]
        | ok rs =>
          rw [ih]
          cases ha : processDirectory reader a with
          | error e => simp [Except.bind, Except.map]
          | ok ra =>
            cases hb : processDirectory reader b with
            | error e => simp [Except.bind, Except.map]
            | ok rb => simp [Except.bind, Except.map, List.append_assoc]
      · rw [if_neg hp, if_neg hp]
        exact ih

end PdfExtract
